import Mathlib

/-
Verification of the youtube_metadata_fetcher pipeline
(src/youtube_metadata_fetcher/main.py), modelled over `List Char`.

Python regex substitutions are embedded as left-to-right scans that, at each
position, attempt the leftmost non-greedy match of the pattern and remove it,
exactly as `re.sub` does.  The scans are written with a fuel argument equal to
the input length so that every definition reduces inside the kernel.
-/

/-- Python `\s` on the ASCII range: space, tab, newline, carriage return,
vertical tab, form feed. -/
def isWs (c : Char) : Bool :=
  c = ' ' || c = '\t' || c = '\n' || c = '\r' || c = '\x0b' || c = '\x0c'

/-- `startsList pat l` holds when `pat` is an initial segment of `l`. -/
def startsList : List Char → List Char → Bool
  | [], _ => true
  | _ :: _, [] => false
  | p :: ps, c :: cs => p = c && startsList ps cs

/-- Index of the first position of `l` where the literal `pat` starts. -/
def findSub (pat : List Char) : List Char → Option Nat
  | [] => if startsList pat [] then some 0 else none
  | l@(_ :: rest) =>
    if startsList pat l then some 0 else (findSub pat rest).map (· + 1)

/-- Index of the first newline character. -/
def findNl : List Char → Option Nat
  | [] => none
  | c :: rest => if c = '\n' then some 0 else (findNl rest).map (· + 1)

/-- Leftmost non-greedy match of `WEBVTT.*?\nKind:.*?\nLanguage:.*?\n`
(DOTALL) at the head of `l`; returns the remainder after the match.  Laziness
of each `.*?` amounts to taking the first occurrence of the next literal. -/
def matchHeader (l : List Char) : Option (List Char) :=
  if startsList "WEBVTT".toList l then
    match findSub "\nKind:".toList (l.drop 6) with
    | none => none
    | some i =>
      match findSub "\nLanguage:".toList ((l.drop 6).drop (i + 6)) with
      | none => none
      | some j =>
        match findNl (((l.drop 6).drop (i + 6)).drop (j + 10)) with
        | none => none
        | some k => some ((((l.drop 6).drop (i + 6)).drop (j + 10)).drop (k + 1))
  else none

/-- Scan for `re.sub(r"WEBVTT.*?\nKind:.*?\nLanguage:.*?\n", "", _, DOTALL)`. -/
def stripHeaderGo : Nat → List Char → List Char
  | 0, l => l
  | _ + 1, [] => []
  | fuel + 1, c :: rest =>
    match matchHeader (c :: rest) with
    | some r => stripHeaderGo fuel r
    | none => c :: stripHeaderGo fuel rest

def stripHeader (l : List Char) : List Char := stripHeaderGo l.length l

/-- Does `l` begin with the shape `\d{2}:\d{2}:\d{2}\.\d{3}`? -/
def tsShape : List Char → Bool
  | d1 :: d2 :: c1 :: d3 :: d4 :: c2 :: d5 :: d6 :: p :: d7 :: d8 :: d9 :: _ =>
    d1.isDigit && d2.isDigit && c1 = ':' && d3.isDigit && d4.isDigit &&
      c2 = ':' && d5.isDigit && d6.isDigit && p = '.' &&
      d7.isDigit && d8.isDigit && d9.isDigit
  | _ => false

/-- Leftmost match of `\d{2}:\d{2}:\d{2}\.\d{3}.*?\n` at the head of `l`
(`.` does not cross newlines, so `.*?\n` runs to the first newline);
returns the remainder after the match. -/
def matchTs (l : List Char) : Option (List Char) :=
  if tsShape l then
    match findNl (l.drop 12) with
    | none => none
    | some k => some ((l.drop 12).drop (k + 1))
  else none

/-- Scan for `re.sub(r"\d{2}:\d{2}:\d{2}\.\d{3}.*?\n", "", _)`. -/
def stripTsGo : Nat → List Char → List Char
  | 0, l => l
  | _ + 1, [] => []
  | fuel + 1, c :: rest =>
    match matchTs (c :: rest) with
    | some r => stripTsGo fuel r
    | none => c :: stripTsGo fuel rest

def stripTimestamps (l : List Char) : List Char := stripTsGo l.length l

/-- First index of the closing character `cl`, failing at a newline
(`.` in `<.*?>` / `\[.*?\]` does not match `\n`). -/
def findClose (cl : Char) : List Char → Option Nat
  | [] => none
  | c :: rest =>
    if c = cl then some 0
    else if c = '\n' then none
    else (findClose cl rest).map (· + 1)

/-- Scan for `re.sub(r"<.*?>", "", _)` (with `op = '<'`, `cl = '>'`) and
`re.sub(r"\[.*?\]", "", _)` (with `op = '['`, `cl = ']'`). -/
def stripDelimGo (op cl : Char) : Nat → List Char → List Char
  | 0, l => l
  | _ + 1, [] => []
  | fuel + 1, c :: rest =>
    if c = op then
      match findClose cl rest with
      | some j => stripDelimGo op cl fuel (rest.drop (j + 1))
      | none => c :: stripDelimGo op cl fuel rest
    else c :: stripDelimGo op cl fuel rest

def stripDelim (op cl : Char) (l : List Char) : List Char :=
  stripDelimGo op cl l.length l

/-- Scan for `re.sub(r"\s{2,}", " ", _)`: every maximal run of two or more
whitespace characters becomes one space; a lone whitespace char is kept. -/
def collapseWsGo : Nat → List Char → List Char
  | 0, l => l
  | _ + 1, [] => []
  | _ + 1, [c] => [c]
  | fuel + 1, c :: c2 :: rest =>
    if isWs c && isWs c2 then collapseWsGo fuel (' ' :: rest)
    else c :: collapseWsGo fuel (c2 :: rest)

def collapseWs (l : List Char) : List Char := collapseWsGo l.length l

/-- One step of right-trimming: keep `c` in front of the trimmed tail unless
the tail vanished and `c` is itself whitespace. -/
def rstripAux (c : Char) : List Char → List Char
  | [] => if isWs c then [] else [c]
  | r => c :: r

/-- Remove trailing whitespace. -/
def rstrip : List Char → List Char
  | [] => []
  | c :: rest => rstripAux c (rstrip rest)

/-- Python `str.strip()`: remove leading and trailing whitespace. -/
def stripEnds (l : List Char) : List Char := rstrip (l.dropWhile isWs)

/-- `clean_transcript` from src/youtube_metadata_fetcher/main.py: the seven
rewrite passes, in source order. -/
def clean_transcript (raw_transcript : List Char) : List Char :=
  let t1 := stripHeader raw_transcript
  let t2 := stripTimestamps t1
  let t3 := stripDelim '<' '>' t2
  let t4 := stripDelim '[' ']' t3
  let t5 := t4.filter (fun c => c ≠ '<')
  let t6 := t5.map (fun c => if c = '\n' then ' ' else c)
  stripEnds (collapseWs t6)

/-- `clean_text` from src/youtube_metadata_fetcher/main.py; `none` models an
absent field, and `not text` is true for both `None` and `""`. -/
def clean_text : Option (List Char) → List Char
  | none => "N/A".toList
  | some t => if t = [] then "N/A".toList else stripEnds (collapseWs t)

/-- Every character produced by the whitespace-collapse scan was already in
the input or is the single space it substitutes for a run. -/
theorem mem_collapseWsGo : ∀ (fuel : Nat) (l : List Char) (c : Char),
    c ∈ collapseWsGo fuel l → c ∈ l ∨ c = ' '
  | 0, _, _, h => Or.inl h
  | _ + 1, [], _, h => Or.inl h
  | _ + 1, [_], _, h => Or.inl h
  | fuel + 1, x :: y :: rest, c, h => by
    simp only [collapseWsGo] at h
    by_cases hw : (isWs x && isWs y) = true
    · rw [if_pos hw] at h
      rcases mem_collapseWsGo fuel (' ' :: rest) c h with h' | h'
      · rcases List.mem_cons.mp h' with h'' | h''
        · exact Or.inr h''
        · exact Or.inl (List.mem_cons_of_mem _ (List.mem_cons_of_mem _ h''))
      · exact Or.inr h'
    · rw [if_neg hw] at h
      rcases List.mem_cons.mp h with h' | h'
      · exact Or.inl (h' ▸ List.mem_cons_self _ _)
      · rcases mem_collapseWsGo fuel (y :: rest) c h' with h'' | h''
        · exact Or.inl (List.mem_cons_of_mem _ h'')
        · exact Or.inr h''

/-- `rstrip` only removes characters. -/
theorem mem_rstrip : ∀ (l : List Char) (c : Char), c ∈ rstrip l → c ∈ l
  | [], _, h => h
  | x :: rest, c, h => by
    simp only [rstrip] at h
    cases hr : rstrip rest with
    | nil =>
      rw [hr] at h
      simp only [rstripAux] at h
      by_cases hw : isWs x = true
      · rw [if_pos hw] at h; cases h
      · rw [if_neg hw] at h
        rw [List.mem_singleton.mp h]
        exact List.mem_cons_self _ _
    | cons a as =>
      rw [hr] at h
      simp only [rstripAux] at h
      rcases List.mem_cons.mp h with h' | h'
      · exact h' ▸ List.mem_cons_self _ _
      · exact List.mem_cons_of_mem _ (mem_rstrip rest c (hr ▸ h'))

/-- `stripEnds` only removes characters. -/
theorem mem_stripEnds (l : List Char) (c : Char) (h : c ∈ stripEnds l) : c ∈ l :=
  (List.dropWhile_sublist isWs).subset (mem_rstrip _ _ h)

/-- The cleaned transcript never contains a newline: the line-fold pass maps
every newline to a space and the later passes only keep or substitute
characters. -/
theorem nl_not_mem_clean (s : List Char) : '\n' ∉ clean_transcript s := by
  intro h
  simp only [clean_transcript] at h
  have h1 := mem_stripEnds _ _ h
  rcases mem_collapseWsGo _ _ _ h1 with h2 | h2
  · rcases List.mem_map.mp h2 with ⟨x, _, hx⟩
    by_cases hx' : x = '\n'
    · rw [if_pos hx'] at hx
      exact absurd hx (by decide)
    · rw [if_neg hx'] at hx
      exact hx' hx
  · exact absurd h2 (by decide)

/-- No two adjacent whitespace characters. -/
def noAdjWs : List Char → Bool
  | [] => true
  | [_] => true
  | c :: c2 :: rest => !(isWs c && isWs c2) && noAdjWs (c2 :: rest)

theorem noAdj_tail (c : Char) (rest : List Char) (h : noAdjWs (c :: rest) = true) :
    noAdjWs rest = true := by
  cases rest with
  | nil => rfl
  | cons c2 r =>
    simp only [noAdjWs, Bool.and_eq_true] at h
    exact h.2

theorem collapseWsGo_of_noAdj : ∀ (fuel : Nat) (l : List Char),
    noAdjWs l = true → collapseWsGo fuel l = l
  | 0, _, _ => rfl
  | _ + 1, [], _ => rfl
  | _ + 1, [_], _ => rfl
  | fuel + 1, c :: c2 :: rest, h => by
    simp only [noAdjWs, Bool.and_eq_true, Bool.not_eq_true'] at h
    simp only [collapseWsGo, h.1, Bool.false_eq_true, if_false]
    rw [collapseWsGo_of_noAdj fuel (c2 :: rest) h.2]

/-- The head of a collapsed nonempty list is whitespace exactly when the
head of the input is. -/
theorem collapseWsGo_head : ∀ (fuel : Nat) (c : Char) (rest : List Char),
    (c :: rest).length ≤ fuel →
    ∃ d t, collapseWsGo fuel (c :: rest) = d :: t ∧ isWs d = isWs c
  | 0, c, rest, h => absurd h (by simp)
  | fuel + 1, c, [], _ => ⟨c, [], rfl, rfl⟩
  | fuel + 1, c, c2 :: rest, h => by
    simp only [collapseWsGo]
    by_cases hw : (isWs c && isWs c2) = true
    · rw [if_pos hw]
      have hlen : (' ' :: rest).length ≤ fuel := by
        simp only [List.length_cons] at h ⊢
        omega
      rcases collapseWsGo_head fuel ' ' rest hlen with ⟨d, t, heq, hd⟩
      refine ⟨d, t, heq, ?_⟩
      rw [hd]
      have : isWs c = true := (Bool.and_eq_true _ _ |>.mp hw).1
      rw [this]
      rfl
    · rw [if_neg hw]
      exact ⟨c, _, rfl, rfl⟩

/-- The whitespace-collapse pass leaves no two adjacent whitespace chars. -/
theorem noAdj_collapseWsGo : ∀ (fuel : Nat) (l : List Char),
    l.length ≤ fuel → noAdjWs (collapseWsGo fuel l) = true
  | 0, l, h => by
    have : l = [] := List.length_eq_zero.mp (Nat.le_zero.mp h)
    subst this
    rfl
  | _ + 1, [], _ => rfl
  | _ + 1, [_], _ => rfl
  | fuel + 1, c :: c2 :: rest, h => by
    simp only [collapseWsGo]
    by_cases hw : (isWs c && isWs c2) = true
    · rw [if_pos hw]
      apply noAdj_collapseWsGo fuel
      simp only [List.length_cons] at h ⊢
      omega
    · rw [if_neg hw]
      have hlen : (c2 :: rest).length ≤ fuel := by
        simp only [List.length_cons] at h ⊢
        omega
      rcases collapseWsGo_head fuel c2 rest hlen with ⟨d, t, heq, hd⟩
      rw [heq]
      have htl : noAdjWs (d :: t) = true := heq ▸ noAdj_collapseWsGo fuel (c2 :: rest) hlen
      simp only [noAdjWs, Bool.and_eq_true, Bool.not_eq_true']
      refine ⟨?_, htl⟩
      rw [hd]
      cases hb : (isWs c && isWs c2) with
      | false => rfl
      | true => exact absurd hb hw

theorem noAdj_dropWhile : ∀ (l : List Char),
    noAdjWs l = true → noAdjWs (l.dropWhile isWs) = true
  | [], h => h
  | c :: rest, h => by
    rw [List.dropWhile_cons]
    by_cases hc : isWs c = true
    · simp only [hc, if_true]
      exact noAdj_dropWhile rest (noAdj_tail c rest h)
    · simp only [hc, Bool.false_eq_true, if_false]
      exact h

theorem rstrip_shape (x : Char) (xs : List Char) :
    rstrip (x :: xs) = [] ∨ ∃ t, rstrip (x :: xs) = x :: t := by
  simp only [rstrip]
  cases rstrip xs with
  | nil =>
    simp only [rstripAux]
    by_cases h : isWs x = true
    · rw [if_pos h]
      exact Or.inl rfl
    · rw [if_neg h]
      exact Or.inr ⟨[], rfl⟩
  | cons a as =>
    simp only [rstripAux]
    exact Or.inr ⟨a :: as, rfl⟩

theorem noAdj_rstrip : ∀ (l : List Char),
    noAdjWs l = true → noAdjWs (rstrip l) = true
  | [], h => h
  | c :: rest, h => by
    have hr := noAdj_rstrip rest (noAdj_tail c rest h)
    simp only [rstrip]
    cases hrr : rstrip rest with
    | nil =>
      simp only [rstripAux]
      by_cases hc : isWs c = true
      · rw [if_pos hc]
        rfl
      · rw [if_neg hc]
        rfl
    | cons a as =>
      simp only [rstripAux]
      rw [hrr] at hr
      cases rest with
      | nil =>
        simp only [rstrip] at hrr
        exact absurd hrr.symm (List.cons_ne_nil a as)
      | cons r1 rs =>
        rcases rstrip_shape r1 rs with h0 | ⟨t, ht⟩
        · rw [h0] at hrr
          exact absurd hrr.symm (List.cons_ne_nil a as)
        · rw [ht] at hrr
          injection hrr with h1 h2
          subst h1
          simp only [noAdjWs, Bool.and_eq_true] at h ⊢
          exact ⟨h.1, hr⟩

theorem rstrip_last : ∀ (l : List Char) (c : Char),
    (rstrip l).getLast? = some c → isWs c = false
  | [], c, h => by cases h
  | x :: rest, c, h => by
    simp only [rstrip] at h
    cases hrr : rstrip rest with
    | nil =>
      rw [hrr] at h
      simp only [rstripAux] at h
      by_cases hw : isWs x = true
      · rw [if_pos hw] at h
        cases h
      · rw [if_neg hw] at h
        have hx : x = c := by simpa using h
        rw [← hx]
        simpa using hw
    | cons a as =>
      rw [hrr] at h
      simp only [rstripAux] at h
      rw [List.getLast?_cons_cons] at h
      exact rstrip_last rest c (hrr ▸ h)

theorem dropWhile_head_not : ∀ (l : List Char) (d : Char) (t : List Char),
    l.dropWhile isWs = d :: t → isWs d = false
  | [], _, _, h => by cases h
  | c :: rest, d, t, h => by
    rw [List.dropWhile_cons] at h
    by_cases hc : isWs c = true
    · rw [if_pos hc] at h
      exact dropWhile_head_not rest d t h
    · rw [if_neg hc] at h
      injection h with h1 _
      rw [← h1]
      simpa using hc

theorem stripEnds_head_not (l : List Char) (d : Char) (t : List Char)
    (h : stripEnds l = d :: t) : isWs d = false := by
  unfold stripEnds at h
  cases hm : l.dropWhile isWs with
  | nil =>
    rw [hm] at h
    simp only [rstrip] at h
    exact absurd h.symm (List.cons_ne_nil d t)
  | cons x xs =>
    rw [hm] at h
    rcases rstrip_shape x xs with h0 | ⟨t', ht'⟩
    · rw [h0] at h
      exact absurd h.symm (List.cons_ne_nil d t)
    · rw [ht'] at h
      injection h with h1 _
      rw [← h1]
      exact dropWhile_head_not l x xs hm

theorem dropWhile_eq_self_of_not (l : List Char)
    (h : ∀ d t, l = d :: t → isWs d = false) : l.dropWhile isWs = l := by
  cases l with
  | nil => rfl
  | cons c rest =>
    rw [List.dropWhile_cons, if_neg]
    simp [h c rest rfl]

theorem rstrip_eq_self : ∀ (l : List Char),
    (∀ c, l.getLast? = some c → isWs c = false) → rstrip l = l
  | [], _ => rfl
  | [x], h => by
    have hx : isWs x = false := h x (by simp)
    simp [rstrip, rstripAux, hx]
  | x :: y :: rest, h => by
    have hr : rstrip (y :: rest) = y :: rest :=
      rstrip_eq_self (y :: rest) (fun c hc => h c (by rw [List.getLast?_cons_cons]; exact hc))
    show rstripAux x (rstrip (y :: rest)) = x :: y :: rest
    rw [hr]
    simp only [rstripAux]

theorem stripEnds_idem (l : List Char) : stripEnds (stripEnds l) = stripEnds l := by
  have h1 : (stripEnds l).dropWhile isWs = stripEnds l :=
    dropWhile_eq_self_of_not _ (fun d t h => stripEnds_head_not l d t h)
  have h2 : rstrip (stripEnds l) = stripEnds l :=
    rstrip_eq_self _ (fun c hc => rstrip_last (l.dropWhile isWs) c hc)
  show rstrip ((stripEnds l).dropWhile isWs) = stripEnds l
  rw [h1]
  exact h2

/-- The final whitespace-collapse-and-trim pass is idempotent. -/
theorem pass7_idem (m : List Char) :
    stripEnds (collapseWs (stripEnds (collapseWs m))) = stripEnds (collapseWs m) := by
  have hadj : noAdjWs (stripEnds (collapseWs m)) = true :=
    noAdj_rstrip _ (noAdj_dropWhile _ (noAdj_collapseWsGo m.length m le_rfl))
  have h1 : collapseWs (stripEnds (collapseWs m)) = stripEnds (collapseWs m) :=
    collapseWsGo_of_noAdj _ _ hadj
  rw [h1]
  exact stripEnds_idem _

/-- C1 (amended): clean applies exactly the fixed sequence of seven rewrite
passes — header strip, timestamp strip, angle-tag strip, bracket strip,
stray-'<' removal, newline fold, whitespace collapse with trim — where the
header pattern is removed at every occurrence (not only a leading one) and
the timestamp pattern is removed from each timestamp through its line
terminator wherever the timestamp starts (not only at the start of a line);
the result contains no newline character. -/
theorem c1_clean_passes_amended (s : List Char) :
    clean_transcript s =
      stripEnds (collapseWs
        (((stripDelim '[' ']' (stripDelim '<' '>'
              (stripTimestamps (stripHeader s)))).filter
            (fun c => c ≠ '<')).map (fun c => if c = '\n' then ' ' else c)))
    ∧ '\n' ∉ clean_transcript s :=
  ⟨rfl, nl_not_mem_clean s⟩

theorem findNl_none : ∀ (l : List Char), '\n' ∉ l → findNl l = none
  | [], _ => rfl
  | c :: rest, h => by
    simp only [findNl]
    rw [if_neg (fun e : c = '\n' => h (e ▸ List.mem_cons_self _ _)),
      findNl_none rest (fun hr => h (List.mem_cons_of_mem _ hr))]
    rfl

theorem findSub_none : ∀ (p : Char) (ps l : List Char),
    p ∉ l → findSub (p :: ps) l = none
  | _, _, [], _ => rfl
  | p, ps, c :: rest, h => by
    simp only [findSub]
    have hne : startsList (p :: ps) (c :: rest) = false := by
      have : (p = c) = False := by
        simp only [eq_iff_iff, iff_false]
        exact fun e => h (e ▸ List.mem_cons_self _ _)
      simp [startsList, this]
    rw [hne]
    simp only [Bool.false_eq_true, if_false]
    rw [findSub_none p ps rest (fun hr => h (List.mem_cons_of_mem _ hr))]
    rfl

theorem matchHeader_none (l : List Char) (h : '\n' ∉ l) : matchHeader l = none := by
  unfold matchHeader
  by_cases hw : startsList "WEBVTT".toList l = true
  · rw [if_pos hw]
    have e1 : "\nKind:".toList = '\n' :: "Kind:".toList := rfl
    rw [e1, findSub_none _ _ _ (fun hm => h (List.drop_subset _ _ hm))]
  · rw [if_neg hw]

theorem stripHeaderGo_id : ∀ (fuel : Nat) (l : List Char),
    '\n' ∉ l → stripHeaderGo fuel l = l
  | 0, _, _ => rfl
  | _ + 1, [], _ => rfl
  | fuel + 1, c :: rest, h => by
    simp only [stripHeaderGo]
    rw [matchHeader_none _ h]
    rw [stripHeaderGo_id fuel rest (fun hr => h (List.mem_cons_of_mem _ hr))]

theorem matchTs_none (l : List Char) (h : '\n' ∉ l) : matchTs l = none := by
  unfold matchTs
  by_cases hs : tsShape l = true
  · rw [if_pos hs]
    rw [findNl_none _ (fun hm => h (List.drop_subset _ _ hm))]
  · rw [if_neg hs]

theorem stripTsGo_id : ∀ (fuel : Nat) (l : List Char),
    '\n' ∉ l → stripTsGo fuel l = l
  | 0, _, _ => rfl
  | _ + 1, [], _ => rfl
  | fuel + 1, c :: rest, h => by
    simp only [stripTsGo]
    rw [matchTs_none _ h]
    rw [stripTsGo_id fuel rest (fun hr => h (List.mem_cons_of_mem _ hr))]

theorem stripDelimGo_id : ∀ (op cl : Char) (fuel : Nat) (l : List Char),
    op ∉ l → stripDelimGo op cl fuel l = l
  | _, _, 0, _, _ => rfl
  | _, _, _ + 1, [], _ => rfl
  | op, cl, fuel + 1, c :: rest, h => by
    simp only [stripDelimGo]
    rw [if_neg (fun e : c = op => h (e ▸ List.mem_cons_self _ _))]
    rw [stripDelimGo_id op cl fuel rest (fun hr => h (List.mem_cons_of_mem _ hr))]

theorem filter_lt_id : ∀ (l : List Char),
    '<' ∉ l → l.filter (fun c => c ≠ '<') = l
  | [], _ => rfl
  | c :: rest, h => by
    have hc : c ≠ '<' := fun e => h (e ▸ List.mem_cons_self _ _)
    rw [List.filter_cons]
    rw [if_pos (by simpa using hc)]
    rw [filter_lt_id rest (fun hr => h (List.mem_cons_of_mem _ hr))]

theorem map_nl_id : ∀ (l : List Char),
    '\n' ∉ l → l.map (fun c => if c = '\n' then ' ' else c) = l
  | [], _ => rfl
  | c :: rest, h => by
    simp only [List.map_cons]
    rw [if_neg (fun e : c = '\n' => h (e ▸ List.mem_cons_self _ _))]
    rw [map_nl_id rest (fun hr => h (List.mem_cons_of_mem _ hr))]

/-- The cleaned transcript never contains '<': the fifth pass removes it and
the later passes introduce only spaces. -/
theorem lt_not_mem_clean (s : List Char) : '<' ∉ clean_transcript s := by
  intro h
  simp only [clean_transcript] at h
  have h1 := mem_stripEnds _ _ h
  rcases mem_collapseWsGo _ _ _ h1 with h2 | h2
  · rcases List.mem_map.mp h2 with ⟨x, hx5, hx⟩
    by_cases hx' : x = '\n'
    · rw [if_pos hx'] at hx
      exact absurd hx (by decide)
    · rw [if_neg hx'] at hx
      rcases List.mem_filter.mp hx5 with ⟨_, hpx⟩
      have hne : x ≠ '<' := by simpa using hpx
      exact hne hx
  · exact absurd h2 (by decide)

/-- C3 (amended): clean is idempotent on every payload whose cleaned form is
left unchanged by the bracket-strip pass — that is, whenever clean(x)
contains no '[' later followed by ']' on the (single) remaining line.  The
other passes can never act again: the cleaned text has no newline (so the
header, timestamp, fold and collapse passes are inert) and no '<'. -/
theorem c3_clean_idempotent_amended (x : List Char)
    (h : stripDelim '[' ']' (clean_transcript x) = clean_transcript x) :
    clean_transcript (clean_transcript x) = clean_transcript x := by
  have hnl : '\n' ∉ clean_transcript x := nl_not_mem_clean x
  have hlt : '<' ∉ clean_transcript x := lt_not_mem_clean x
  have e1 : stripHeader (clean_transcript x) = clean_transcript x :=
    stripHeaderGo_id _ _ hnl
  have e2 : stripTimestamps (clean_transcript x) = clean_transcript x :=
    stripTsGo_id _ _ hnl
  have e3 : stripDelim '<' '>' (clean_transcript x) = clean_transcript x :=
    stripDelimGo_id _ _ _ _ hlt
  have e5 : (clean_transcript x).filter (fun c => c ≠ '<') = clean_transcript x :=
    filter_lt_id _ hlt
  have e6 : (clean_transcript x).map (fun c => if c = '\n' then ' ' else c) =
      clean_transcript x :=
    map_nl_id _ hnl
  have step : clean_transcript (clean_transcript x) =
      stripEnds (collapseWs (clean_transcript x)) := by
    show stripEnds (collapseWs
        (((stripDelim '[' ']' (stripDelim '<' '>'
              (stripTimestamps (stripHeader (clean_transcript x))))).filter
            (fun c => c ≠ '<')).map (fun c => if c = '\n' then ' ' else c))) =
      stripEnds (collapseWs (clean_transcript x))
    rw [e1, e2, e3, h, e5, e6]
  rw [step]
  exact pass7_idem
    (((stripDelim '[' ']' (stripDelim '<' '>'
          (stripTimestamps (stripHeader x)))).filter
        (fun c => c ≠ '<')).map (fun c => if c = '\n' then ' ' else c))

/-- Witness for C3: a payload satisfying the side condition, on which
idempotence indeed holds. -/
theorem c3_clean_idempotent_witness :
    stripDelim '[' ']' (clean_transcript "hi  there\n".toList) =
        clean_transcript "hi  there\n".toList
    ∧ clean_transcript (clean_transcript "hi  there\n".toList) =
        clean_transcript "hi  there\n".toList :=
  ⟨by decide, c3_clean_idempotent_amended "hi  there\n".toList (by decide)⟩

/-- C3 as stated is false: folding the newline of "[\n]" into a space creates
the bracketed span "[ ]", which a second clean removes entirely. -/
theorem c3_clean_idempotent_counterexample :
    clean_transcript "[\n]".toList = "[ ]".toList
    ∧ clean_transcript (clean_transcript "[\n]".toList) = []
    ∧ clean_transcript (clean_transcript "[\n]".toList) ≠ clean_transcript "[\n]".toList := by
  decide

/-- Pass 1 exactly as the claim words it: strip only a leading signature
block (for comparison with the code's global substitution). -/
def stripHeaderLeading (l : List Char) : List Char :=
  match matchHeader l with
  | some r => r
  | none => l

/-- Split off the first line, keeping its terminator with it. -/
def firstLine : List Char → List Char × List Char
  | [] => ([], [])
  | c :: rest =>
    if c = '\n' then ([c], rest)
    else
      let pr := firstLine rest
      (c :: pr.1, pr.2)

/-- Pass 2 exactly as the claim words it: remove every line that begins with
an `HH:MM:SS.mmm` timestamp, through its terminator. -/
def stripTsLinesGo : Nat → List Char → List Char
  | 0, l => l
  | _ + 1, [] => []
  | fuel + 1, c :: rest =>
    let pr := firstLine (c :: rest)
    (if tsShape pr.1 && pr.1.getLast? = some '\n' then [] else pr.1) ++
      stripTsLinesGo fuel pr.2

/-- The cleaning pipeline exactly as claimed: leading-anchored header strip
and line-anchored timestamp strip, other passes as in the code. -/
def clean_claim (raw : List Char) : List Char :=
  let t1 := stripHeaderLeading raw
  let t2 := stripTsLinesGo t1.length t1
  let t3 := stripDelim '<' '>' t2
  let t4 := stripDelim '[' ']' t3
  let t5 := t4.filter (fun c => c ≠ '<')
  let t6 := t5.map (fun c => if c = '\n' then ' ' else c)
  stripEnds (collapseWs t6)

/-- A payload whose header block is not leading and whose timestamp starts
mid-line. -/
def c1Bad : List Char := "xWEBVTT\nKind: k\nLanguage: en\nab12:34:56.789x\n".toList

/-- C1 as stated is false: on `c1Bad` the code removes the non-leading header
block and the mid-line timestamped tail, while the claimed passes (leading
header, lines beginning with a timestamp) remove neither. -/
theorem c1_clean_passes_counterexample :
    clean_transcript c1Bad = "xab".toList
    ∧ clean_claim c1Bad = "xWEBVTT Kind: k Language: en ab12:34:56.789x".toList
    ∧ clean_transcript c1Bad ≠ clean_claim c1Bad := by
  decide

/-- C2: On the documented payload, clean returns exactly "Hello world". -/
theorem c2_clean_example :
    clean_transcript
        "WEBVTT\nKind: captions\nLanguage: en\n\n00:00:00.000 --> 00:00:02.000\n[Music] Hello <c>world</c>\n".toList
      = "Hello world".toList := by
  decide

/-- One subtitle encoding, as yt-dlp reports it: a format tag and a URL. -/
structure SubtitleFormat where
  ext : List Char
  url : List Char
  deriving DecidableEq

/-- `info["subtitles"]` / `info["automatic_captions"]`: language code to
list of encodings. -/
abbrev CaptionIndex := List (List Char × List SubtitleFormat)

/-- The fields of the yt-dlp info dict that `process_video` reads;
`none` models an absent key. -/
structure VideoInfo where
  title : Option (List Char)
  description : Option (List Char)
  subtitles : Option CaptionIndex
  automatic_captions : Option CaptionIndex
  deriving DecidableEq

/-- The pydantic `VideoMetadata` model of main.py. -/
structure VideoMetadata where
  title : List Char
  description : List Char
  transcript : List Char
  deriving DecidableEq

/-- Outcome of `requests.get(vtt_url)` at the caption-fetch boundary. -/
inductive FetchOutcome where
  | ok (payload : List Char)
  | err (msg : List Char)
  deriving DecidableEq

/-- `fetch_transcript` from main.py: returns the raw payload, or catches the
failure and returns the error string embedding its message. -/
def fetch_transcript (fetch : List Char → FetchOutcome) (vtt_url : List Char) : List Char :=
  match fetch vtt_url with
  | FetchOutcome.ok t => t
  | FetchOutcome.err e => "Error fetching transcript: ".toList ++ e

/-- Python truthiness of an optional dict: `None` and `{}` are falsy. -/
def truthyIdx : Option CaptionIndex → Bool
  | none => false
  | some d => !d.isEmpty

/-- Python `a or b` on optional dicts. -/
def pyOr (a b : Option CaptionIndex) : Option CaptionIndex :=
  if truthyIdx a then a else b

/-- Dict lookup `subtitles[k]` as an option. -/
def lookupLang (k : List Char) : Option CaptionIndex → Option (List SubtitleFormat)
  | none => none
  | some d => (d.find? (fun kv => kv.1 = k)).map (fun kv => kv.2)

/-- Python `k in subtitles`. -/
def hasLang (k : List Char) (o : Option CaptionIndex) : Bool :=
  (lookupLang k o).isSome

/-- Python truthiness of `vtt_url` at main.py:131: `None` and the empty
string are falsy. -/
def truthyStr : Option (List Char) → Bool
  | none => false
  | some s => !s.isEmpty

/-- `process_video` from main.py (the part after `extract_info`): `none`
input models the exception path, in which the function returns `None`. -/
def process_video (fetch : List Char → FetchOutcome) :
    Option VideoInfo → Option VideoMetadata
  | none => none
  | some info =>
    let title := clean_text info.title
    let description := clean_text info.description
    let subtitles := pyOr info.subtitles info.automatic_captions
    let transcript :=
      if truthyIdx subtitles && hasLang "en".toList subtitles then
        let subtitle_formats := (lookupLang "en".toList subtitles).getD []
        let vtt_url := (subtitle_formats.find? (fun f => f.ext = "vtt".toList)).map
            SubtitleFormat.url
        if truthyStr vtt_url then
          clean_transcript (fetch_transcript fetch (vtt_url.getD []))
        else
          "Transcript not available in VTT format.".toList
      else
        "No English subtitles available.".toList
    some ⟨title, description, transcript⟩

theorem truthy_of_lookup (k : List Char) (o : Option CaptionIndex)
    (fmts : List SubtitleFormat) (h : lookupLang k o = some fmts) :
    truthyIdx o = true := by
  cases o with
  | none => simp [lookupLang] at h
  | some d =>
    cases d with
    | nil => simp [lookupLang] at h
    | cons a as => rfl

/-- C4: If the combined caption index (`subtitles or automatic_captions`)
has no English entry, the record is still produced with transcript
"No English subtitles available."; if it has an English entry but no
encoding tagged "vtt", the record is still produced with
"Transcript not available in VTT format.". -/
theorem c4_transcript_fallbacks (fetch : List Char → FetchOutcome) (info : VideoInfo) :
    ((truthyIdx (pyOr info.subtitles info.automatic_captions) &&
        hasLang "en".toList (pyOr info.subtitles info.automatic_captions)) = false →
      process_video fetch (some info) =
        some ⟨clean_text info.title, clean_text info.description,
              "No English subtitles available.".toList⟩)
    ∧ ∀ fmts : List SubtitleFormat,
        lookupLang "en".toList (pyOr info.subtitles info.automatic_captions) = some fmts →
        fmts.find? (fun f => f.ext = "vtt".toList) = none →
        process_video fetch (some info) =
          some ⟨clean_text info.title, clean_text info.description,
                "Transcript not available in VTT format.".toList⟩ := by
  constructor
  · intro h
    simp only [process_video, h, Bool.false_eq_true, if_false]
  · intro fmts hl hf
    have hhas : hasLang "en".toList (pyOr info.subtitles info.automatic_captions) = true := by
      simp only [hasLang, hl, Option.isSome_some]
    simp only [process_video, truthy_of_lookup _ _ _ hl, hhas, Bool.and_self, if_true, hl,
      Option.getD_some, hf, Option.map_none', truthyStr, Bool.false_eq_true, if_false]

def fetchOk : List Char → FetchOutcome := fun _ => FetchOutcome.ok "hello".toList

def infoNoEn : VideoInfo :=
  ⟨some "T".toList, none, some [("fr".toList, [⟨"vtt".toList, "u".toList⟩])], none⟩

def infoNoVtt : VideoInfo :=
  ⟨none, none, some [("en".toList, [⟨"srv1".toList, "u".toList⟩])], none⟩

/-- Witness for C4: a video with only French captions, and one with English
captions in a non-vtt encoding. -/
theorem c4_transcript_fallbacks_witness :
    process_video fetchOk (some infoNoEn) =
      some ⟨clean_text infoNoEn.title, clean_text infoNoEn.description,
            "No English subtitles available.".toList⟩
    ∧ process_video fetchOk (some infoNoVtt) =
      some ⟨clean_text infoNoVtt.title, clean_text infoNoVtt.description,
            "Transcript not available in VTT format.".toList⟩ :=
  ⟨(c4_transcript_fallbacks fetchOk infoNoEn).1 (by decide),
   (c4_transcript_fallbacks fetchOk infoNoVtt).2 [⟨"srv1".toList, "u".toList⟩]
     (by decide) (by decide)⟩

/-- C6: normalize yields the "N/A" sentinel for absent and empty input; any
other input is whitespace-collapsed and trimmed (so the result has no two
adjacent whitespace characters and no whitespace at either end), and the
documented example holds. -/
theorem c6_clean_text_spec :
    clean_text none = "N/A".toList
    ∧ clean_text (some []) = "N/A".toList
    ∧ (∀ t : List Char, t ≠ [] →
        clean_text (some t) = stripEnds (collapseWs t)
        ∧ noAdjWs (clean_text (some t)) = true
        ∧ (∀ d t', clean_text (some t) = d :: t' → isWs d = false)
        ∧ (∀ c, (clean_text (some t)).getLast? = some c → isWs c = false))
    ∧ clean_text (some "  a   b  ".toList) = "a b".toList := by
  refine ⟨rfl, rfl, ?_, by decide⟩
  intro t ht
  have he : clean_text (some t) = stripEnds (collapseWs t) := by
    simp [clean_text, ht]
  refine ⟨he, ?_, ?_, ?_⟩
  · rw [he]
    exact noAdj_rstrip _ (noAdj_dropWhile _ (noAdj_collapseWsGo t.length t le_rfl))
  · intro d t' hdt
    rw [he] at hdt
    exact stripEnds_head_not _ _ _ hdt
  · intro c hc
    rw [he] at hc
    exact rstrip_last ((collapseWs t).dropWhile isWs) c hc

/-- Witness for C6: the non-empty branch evaluated at a concrete input. -/
theorem c6_clean_text_witness :
    clean_text (some "x".toList) = stripEnds (collapseWs "x".toList) :=
  (c6_clean_text_spec.2.2.1 "x".toList (by decide)).1

/-- C10: a non-empty all-whitespace input collapses and trims to the empty
string, not to the "N/A" sentinel. -/
theorem c10_whitespace_only (t : List Char) (hne : t ≠ [])
    (hws : ∀ c ∈ t, isWs c = true) :
    clean_text (some t) = [] ∧ clean_text (some t) ≠ "N/A".toList := by
  have he : clean_text (some t) = stripEnds (collapseWs t) := by
    simp only [clean_text, if_neg (by exact hne)]
  have hall : ∀ c ∈ collapseWs t, isWs c = true := by
    intro c hc
    rcases mem_collapseWsGo _ _ _ hc with h1 | h1
    · exact hws c h1
    · rw [h1]
      rfl
  have hdrop : (collapseWs t).dropWhile isWs = [] := by
    rw [List.dropWhile_eq_nil_iff]
    exact hall
  have h0 : clean_text (some t) = [] := by
    rw [he]
    show rstrip ((collapseWs t).dropWhile isWs) = []
    rw [hdrop]
    rfl
  exact ⟨h0, by rw [h0]; decide⟩

/-- Witness for C10: two spaces normalize to the empty string. -/
theorem c10_whitespace_only_witness :
    clean_text (some [' ', ' ']) = [] ∧ clean_text (some [' ', ' ']) ≠ "N/A".toList :=
  c10_whitespace_only [' ', ' '] (by decide) (by decide)

/-- A playlist entry as the batch loop reads it: its id builds the video
URL. -/
structure PlaylistEntry where
  id : List Char
  deriving DecidableEq

/-- `"https://www.youtube.com/watch?v=" + entry['id']` from main.py. -/
def video_url_of (e : PlaylistEntry) : List Char :=
  "https://www.youtube.com/watch?v=".toList ++ e.id

/-- The playlist loop of `fetch_metadata` in main.py: skip `None` entries,
process the rest in order, append only records that were produced. -/
def collect_metadata (proc : List Char → Option VideoMetadata) :
    List (Option PlaylistEntry) → List VideoMetadata
  | [] => []
  | none :: rest => collect_metadata proc rest
  | some e :: rest =>
    match proc (video_url_of e) with
    | some m => m :: collect_metadata proc rest
    | none => collect_metadata proc rest

/-- C7: the batch is exactly the successfully processed records in discovery
order — null entries and failed videos contribute nothing; in particular
[v1, null, v3] yields [record v1, record v3]. -/
theorem c7_batch_order :
    (∀ (proc : List Char → Option VideoMetadata) (entries : List (Option PlaylistEntry)),
      collect_metadata proc entries =
        entries.filterMap (fun oe => oe.bind (fun e => proc (video_url_of e))))
    ∧ ∀ (proc : List Char → Option VideoMetadata) (v1 v3 : PlaylistEntry)
        (r1 r3 : VideoMetadata),
        proc (video_url_of v1) = some r1 → proc (video_url_of v3) = some r3 →
        collect_metadata proc [some v1, none, some v3] = [r1, r3] := by
  constructor
  · intro proc entries
    induction entries with
    | nil => rfl
    | cons oe rest ih =>
      cases oe with
      | none => simpa [collect_metadata, List.filterMap_cons] using ih
      | some e =>
        cases hp : proc (video_url_of e) with
        | none => simpa [collect_metadata, List.filterMap_cons, hp] using ih
        | some m => simp [collect_metadata, List.filterMap_cons, hp, ih]
  · intro proc v1 v3 r1 r3 h1 h3
    simp [collect_metadata, h1, h3]

def recZero : VideoMetadata := ⟨"N/A".toList, "N/A".toList, "N/A".toList⟩

def procConst : List Char → Option VideoMetadata := fun _ => some recZero

/-- Witness for C7: three entries with the middle one null. -/
theorem c7_batch_order_witness :
    collect_metadata procConst [some ⟨"a".toList⟩, none, some ⟨"b".toList⟩] =
      [recZero, recZero] :=
  c7_batch_order.2 procConst ⟨"a".toList⟩ ⟨"b".toList⟩ recZero recZero rfl rfl

/-- C5 (amended): when the matched vtt encoding's fetch locator is
non-empty (the truthy case of `if vtt_url:`) and the payload fetch fails, a
record is still produced, and its transcript is `clean_transcript` applied
to the fixed error string embedding the failure detail — which equals that
error string itself only when cleaning leaves it unchanged.  (With an empty
locator the code stores the VTT-unavailable fallback without fetching.) -/
theorem c5_fetch_error_amended (fetch : List Char → FetchOutcome) (info : VideoInfo)
    (fmts : List SubtitleFormat) (f : SubtitleFormat) (reason : List Char)
    (hl : lookupLang "en".toList (pyOr info.subtitles info.automatic_captions) = some fmts)
    (hf : fmts.find? (fun g => g.ext = "vtt".toList) = some f)
    (hu : f.url ≠ [])
    (he : fetch f.url = FetchOutcome.err reason) :
    process_video fetch (some info) =
      some ⟨clean_text info.title, clean_text info.description,
            clean_transcript ("Error fetching transcript: ".toList ++ reason)⟩ := by
  have hhas : hasLang "en".toList (pyOr info.subtitles info.automatic_captions) = true := by
    simp only [hasLang, hl, Option.isSome_some]
  have hu' : truthyStr (some f.url) = true := by
    cases hfu : f.url with
    | nil => exact absurd hfu hu
    | cons a as => rfl
  simp only [process_video, truthy_of_lookup _ _ _ hl, hhas, Bool.and_self, if_true, hl,
    Option.getD_some, hf, Option.map_some', hu', Option.getD_some]
  simp [fetch_transcript, he]

def infoVtt : VideoInfo :=
  ⟨none, none, some [("en".toList, [⟨"vtt".toList, "u".toList⟩])], none⟩

def fetchBoom : List Char → FetchOutcome := fun _ => FetchOutcome.err "boom".toList

/-- Witness for C5: a failing fetch, through a non-empty locator, with a
benign reason. -/
theorem c5_fetch_error_witness :
    process_video fetchBoom (some infoVtt) =
      some ⟨clean_text infoVtt.title, clean_text infoVtt.description,
            clean_transcript ("Error fetching transcript: ".toList ++ "boom".toList)⟩ :=
  c5_fetch_error_amended fetchBoom infoVtt [⟨"vtt".toList, "u".toList⟩]
    ⟨"vtt".toList, "u".toList⟩ "boom".toList (by decide) (by decide) (by decide) rfl

def fetchBoomTag : List Char → FetchOutcome := fun _ => FetchOutcome.err "<boom>".toList

/-- C5 as stated is false: the error string is passed through
`clean_transcript`, so a failure reason containing markup is altered and the
stored transcript is not the fixed error string followed by the reason. -/
theorem c5_fetch_error_counterexample :
    (process_video fetchBoomTag (some infoVtt)).map VideoMetadata.transcript =
      some "Error fetching transcript:".toList
    ∧ "Error fetching transcript:".toList ≠
      "Error fetching transcript: ".toList ++ "<boom>".toList := by
  decide

/-- The three labeled lines written per record by both `save_metadata` and
`save_playlist_metadata` in their plain-text branches. -/
def metadata_text (m : VideoMetadata) : List Char :=
  "Title: ".toList ++ m.title ++ "\nDescription: ".toList ++ m.description ++
    "\nTranscript:\n".toList ++ m.transcript ++ "\n".toList

/-- `50 * "-" + "\n"` from main.py. -/
def divider_line : List Char := List.replicate 50 '-' ++ ['\n']

/-- The plain-text playlist rendering: the loop body of
`save_playlist_metadata` writes each record's block then a divider line. -/
def playlist_text : List VideoMetadata → List Char
  | [] => []
  | m :: rest => metadata_text m ++ divider_line ++ playlist_text rest

/-- C8: in plain-text form the batch output is the records' three-line
blocks in order, with consecutive records separated by the 50-dash divider
line (each record, the last included, is followed by one). -/
theorem c8_playlist_text_layout :
    playlist_text [] = []
    ∧ (∀ (m : VideoMetadata) (ms : List VideoMetadata),
        playlist_text (m :: ms) =
          (List.intersperse divider_line ((m :: ms).map metadata_text)).flatten ++
            divider_line)
    ∧ divider_line = List.replicate 50 '-' ++ ['\n'] := by
  refine ⟨rfl, ?_, rfl⟩
  intro m ms
  induction ms generalizing m with
  | nil => simp [playlist_text]
  | cons m2 ms ih =>
    have hstep : List.intersperse divider_line
        (metadata_text m :: metadata_text m2 :: List.map metadata_text ms) =
      metadata_text m :: divider_line ::
        List.intersperse divider_line (metadata_text m2 :: List.map metadata_text ms) := rfl
    calc playlist_text (m :: m2 :: ms)
        = metadata_text m ++ divider_line ++ playlist_text (m2 :: ms) := rfl
      _ = metadata_text m ++ divider_line ++
          ((List.intersperse divider_line ((m2 :: ms).map metadata_text)).flatten ++
            divider_line) := by rw [ih m2]
      _ = (List.intersperse divider_line ((m :: m2 :: ms).map metadata_text)).flatten ++
          divider_line := by
        simp only [List.map_cons, hstep, List.flatten_cons, List.append_assoc]

def toLowerL (s : List Char) : List Char := s.map Char.toLower

/-- The output path choice of `save_metadata` / `save_playlist_metadata`:
`<dir>/<id>.json` when the lower-cased format is "json", else
`<dir>/<id>.txt`. -/
def output_file (output_path video_id fmt : List Char) : List Char :=
  if toLowerL fmt = "json".toList then
    output_path ++ "/".toList ++ video_id ++ ".json".toList
  else
    output_path ++ "/".toList ++ video_id ++ ".txt".toList

def jsonEscapeChar (c : Char) : List Char :=
  if c = '"' then ['\\', '"']
  else if c = '\\' then ['\\', '\\']
  else if c = '\n' then ['\\', 'n']
  else if c = '\t' then ['\\', 't']
  else if c = '\r' then ['\\', 'r']
  else [c]

/-- Models Python json string escaping on the characters that occur here. -/
def jsonEscape (s : List Char) : List Char := (s.map jsonEscapeChar).flatten

def json_kv (ind key val : List Char) : List Char :=
  ind ++ "\"".toList ++ key ++ "\": \"".toList ++ jsonEscape val ++ "\"".toList

/-- Models pydantic `model_dump_json(indent=4)` / one `json.dumps` list item
at indentation `ind`: the three fields in declaration order. -/
def metadata_json_at (ind : List Char) (m : VideoMetadata) : List Char :=
  ind ++ "\x7b\n".toList
  ++ json_kv (ind ++ "    ".toList) "title".toList m.title ++ ",\n".toList
  ++ json_kv (ind ++ "    ".toList) "description".toList m.description ++ ",\n".toList
  ++ json_kv (ind ++ "    ".toList) "transcript".toList m.transcript ++ "\n".toList
  ++ ind ++ "\x7d".toList

def metadata_json (m : VideoMetadata) : List Char := metadata_json_at [] m

/-- Models `json.dumps([m.dict() for m in all_metadata], indent=4)`. -/
def playlist_json : List VideoMetadata → List Char
  | [] => "[]".toList
  | ms =>
    "[\n".toList ++
      (List.intersperse ",\n".toList (ms.map (metadata_json_at "    ".toList))).flatten ++
      "\n]".toList

/-- The file-system state the writer touches: the set of existing
directories and the files with their contents. -/
structure FS where
  dirs : List (List Char)
  files : List (List Char × List Char)
  deriving DecidableEq

def addDir (ds : List (List Char)) (d : List Char) : List (List Char) :=
  if d ∈ ds then ds else ds ++ [d]

/-- Split a path on '/' into components. -/
def splitSlash : List Char → List (List Char)
  | [] => [[]]
  | c :: rest =>
    if c = '/' then [] :: splitSlash rest
    else
      match splitSlash rest with
      | [] => [[c]]
      | s :: ss => (c :: s) :: ss

/-- Join components with '/'. -/
def joinSlash : List (List Char) → List Char
  | [] => []
  | [s] => s
  | s :: rest => s ++ '/' :: joinSlash rest

/-- The directories `Path(dir).mkdir(parents=True)` creates: every nonempty
prefix of the '/'-separated components, the full path included. -/
def ancestors (dir : List Char) : List (List Char) :=
  ((splitSlash dir).inits.filter (fun p => !p.isEmpty)).map joinSlash

/-- Models `Path(output_dir).mkdir(parents=True, exist_ok=True)` from
`fetch_metadata`: create the directory and its parents; never fails on
pre-existence. -/
def mkdirp (fs : FS) (dir : List Char) : FS :=
  { fs with dirs := (ancestors dir).foldl addDir fs.dirs }

/-- Models `open(path, "w")` followed by the writes: the file is created or
silently overwritten. -/
def fsWrite (fs : FS) (path contents : List Char) : FS :=
  { fs with files := (path, contents) :: fs.files.filter (fun pr => pr.1 ≠ path) }

def fsRead (fs : FS) (path : List Char) : Option (List Char) :=
  (fs.files.find? (fun pr => pr.1 = path)).map (fun pr => pr.2)

/-- `save_metadata` from main.py: path by lower-cased format, render the
record, write; returns the new state and the file written. -/
def save_metadata (fs : FS) (video_id : List Char) (metadata : VideoMetadata)
    (output_path fmt : List Char) : FS × List Char :=
  let output_file_path := output_file output_path video_id fmt
  let contents :=
    if toLowerL fmt = "json".toList then metadata_json metadata
    else metadata_text metadata
  (fsWrite fs output_file_path contents, output_file_path)

/-- `save_playlist_metadata` from main.py. -/
def save_playlist_metadata (fs : FS) (playlist_id : List Char)
    (all_metadata : List VideoMetadata) (output_path fmt : List Char) :
    FS × List Char :=
  let output_file_path := output_file output_path playlist_id fmt
  let contents :=
    if toLowerL fmt = "json".toList then playlist_json all_metadata
    else playlist_text all_metadata
  (fsWrite fs output_file_path contents, output_file_path)

theorem mem_addDir_self (ds : List (List Char)) (d : List Char) : d ∈ addDir ds d := by
  unfold addDir
  split
  · assumption
  · exact List.mem_append_right _ (List.mem_singleton.mpr rfl)

theorem mem_addDir_of_mem (ds : List (List Char)) (d x : List Char) (h : x ∈ ds) :
    x ∈ addDir ds d := by
  unfold addDir
  split
  · exact h
  · exact List.mem_append_left _ h

theorem mem_foldl_addDir_of_mem : ∀ (l ds : List (List Char)) (x : List Char),
    x ∈ ds → x ∈ l.foldl addDir ds
  | [], _, _, h => h
  | a :: l, ds, x, h =>
    mem_foldl_addDir_of_mem l (addDir ds a) x (mem_addDir_of_mem ds a x h)

theorem subset_foldl_addDir : ∀ (l ds : List (List Char)), ∀ x ∈ l, x ∈ l.foldl addDir ds
  | [], _, _, hx => absurd hx (List.not_mem_nil _)
  | a :: l, ds, x, hx => by
    rcases List.mem_cons.mp hx with h | h
    · subst h
      exact mem_foldl_addDir_of_mem l (addDir ds x) x (mem_addDir_self ds x)
    · exact subset_foldl_addDir l (addDir ds a) x h

theorem foldl_addDir_eq_self : ∀ (l ds : List (List Char)),
    (∀ x ∈ l, x ∈ ds) → l.foldl addDir ds = ds
  | [], _, _ => rfl
  | a :: l, ds, h => by
    have ha : a ∈ ds := h a (List.mem_cons_self _ _)
    show List.foldl addDir (addDir ds a) l = ds
    rw [show addDir ds a = ds from by unfold addDir; rw [if_pos ha]]
    exact foldl_addDir_eq_self l ds (fun x hx => h x (List.mem_cons_of_mem _ hx))

theorem splitSlash_ne_nil : ∀ (l : List Char), splitSlash l ≠ []
  | [] => by simp [splitSlash]
  | c :: rest => by
    simp only [splitSlash]
    by_cases hc : c = '/'
    · rw [if_pos hc]
      exact List.cons_ne_nil _ _
    · rw [if_neg hc]
      cases splitSlash rest with
      | nil => exact List.cons_ne_nil _ _
      | cons s ss => exact List.cons_ne_nil _ _

theorem joinSlash_splitSlash : ∀ (l : List Char), joinSlash (splitSlash l) = l
  | [] => rfl
  | c :: rest => by
    simp only [splitSlash]
    by_cases hc : c = '/'
    · rw [if_pos hc]
      cases hs : splitSlash rest with
      | nil => exact absurd hs (splitSlash_ne_nil rest)
      | cons s ss =>
        show [] ++ '/' :: joinSlash (s :: ss) = c :: rest
        have ih := joinSlash_splitSlash rest
        rw [hs] at ih
        rw [List.nil_append, ih, hc]
    · rw [if_neg hc]
      cases hs : splitSlash rest with
      | nil => exact absurd hs (splitSlash_ne_nil rest)
      | cons s ss =>
        have ih := joinSlash_splitSlash rest
        rw [hs] at ih
        cases ss with
        | nil =>
          show c :: s = c :: rest
          rw [show s = rest from ih]
        | cons s2 ss2 =>
          show (c :: s) ++ '/' :: joinSlash (s2 :: ss2) = c :: rest
          rw [List.cons_append]
          rw [show s ++ '/' :: joinSlash (s2 :: ss2) = rest from ih]

theorem self_mem_ancestors (dir : List Char) : dir ∈ ancestors dir := by
  unfold ancestors
  apply List.mem_map.mpr
  refine ⟨splitSlash dir, ?_, joinSlash_splitSlash dir⟩
  apply List.mem_filter.mpr
  constructor
  · exact (List.mem_inits _ _).mpr (List.prefix_refl _)
  · cases hs : splitSlash dir with
    | nil => exact absurd hs (splitSlash_ne_nil dir)
    | cons s ss => rfl

theorem mkdirp_idem (fs : FS) (dir : List Char) :
    mkdirp (mkdirp fs dir) dir = mkdirp fs dir := by
  have h : (ancestors dir).foldl addDir ((ancestors dir).foldl addDir fs.dirs) =
      (ancestors dir).foldl addDir fs.dirs :=
    foldl_addDir_eq_self _ _ (fun x hx => subset_foldl_addDir _ _ x hx)
  simp only [mkdirp, h]

/-- C9: the output path is `<dir>/<id>.json` when the format lower-cases to
"json" and `<dir>/<id>.txt` when it lower-cases to "text"; directory
creation covers the directory and all its parents and is idempotent (so a
re-run never fails on pre-existence); writing the same id/directory/format
twice overwrites: the file afterwards holds the second record's rendering. -/
theorem c9_output_paths (fs : FS) (dir video_id fmt : List Char)
    (m1 m2 : VideoMetadata) :
    (toLowerL fmt = "json".toList →
      (save_metadata fs video_id m1 dir fmt).2 =
        dir ++ "/".toList ++ video_id ++ ".json".toList)
    ∧ (toLowerL fmt = "text".toList →
      (save_metadata fs video_id m1 dir fmt).2 =
        dir ++ "/".toList ++ video_id ++ ".txt".toList)
    ∧ mkdirp (mkdirp fs dir) dir = mkdirp fs dir
    ∧ dir ∈ (mkdirp fs dir).dirs
    ∧ (∀ a ∈ ancestors dir, a ∈ (mkdirp fs dir).dirs)
    ∧ fsRead (save_metadata (save_metadata fs video_id m1 dir fmt).1
          video_id m2 dir fmt).1
        ((save_metadata fs video_id m2 dir fmt).2) =
      some (if toLowerL fmt = "json".toList then metadata_json m2
            else metadata_text m2) := by
  refine ⟨?_, ?_, mkdirp_idem fs dir, ?_, ?_, ?_⟩
  · intro h
    simp [save_metadata, output_file, h]
  · intro h
    show output_file dir video_id fmt = dir ++ "/".toList ++ video_id ++ ".txt".toList
    unfold output_file
    rw [if_neg (by rw [h]; decide)]
  · exact subset_foldl_addDir _ _ dir (self_mem_ancestors dir)
  · intro a ha
    exact subset_foldl_addDir _ _ a ha
  · simp only [save_metadata, fsWrite, fsRead]
    rw [List.find?_cons_of_pos _ (by simp)]
    rfl

def fs0 : FS := ⟨[], []⟩

def mA : VideoMetadata := ⟨"a".toList, "b".toList, "c".toList⟩

def mB : VideoMetadata := ⟨"d".toList, "e".toList, "f".toList⟩

/-- Witness for C9: concrete id "abc123", directory "output", and the two
recognized formats in mixed case; a repeated json write reads back as the
second record's rendering. -/
theorem c9_output_paths_witness :
    (save_metadata fs0 "abc123".toList mA "output".toList "JSON".toList).2 =
      "output".toList ++ "/".toList ++ "abc123".toList ++ ".json".toList
    ∧ (save_metadata fs0 "abc123".toList mA "output".toList "Text".toList).2 =
      "output".toList ++ "/".toList ++ "abc123".toList ++ ".txt".toList
    ∧ fsRead (save_metadata
          (save_metadata fs0 "abc123".toList mA "output".toList "JSON".toList).1
          "abc123".toList mB "output".toList "JSON".toList).1
        ((save_metadata fs0 "abc123".toList mB "output".toList "JSON".toList).2) =
      some (if toLowerL "JSON".toList = "json".toList then metadata_json mB
            else metadata_text mB) :=
  ⟨(c9_output_paths fs0 "output".toList "abc123".toList "JSON".toList mA mB).1
     (by decide),
   (c9_output_paths fs0 "output".toList "abc123".toList "Text".toList mA mB).2.1
     (by decide),
   (c9_output_paths fs0 "output".toList "abc123".toList "JSON".toList mA mB).2.2.2.2.2⟩
